import Mathlib

/-!
Verification of the auto-cr static code-review engine.

This file shallowly embeds the parts of the implementation that the
checked properties are about:

* the source index (`packages/auto-cr-rules/src/sourceIndex.ts`):
  line-offset table construction, UTF-8 byte-offset → UTF-16 code-unit
  index conversion, and the binary search that turns a code-unit index
  into a 1-based line number;
* the `no-swallowed-errors` rule
  (`packages/auto-cr-rules/src/rules/noSwallowedErrors.ts`);
* the quantifier scanner of the `no-catastrophic-regex` rule
  (`hasNestedUnboundedQuantifier` / `readQuantifier`);
* the `no-circular-dependencies` rule with its module-level caches and
  the depth/node-capped DFS `findPathToOrigin`;
* the scan orchestrator's per-file accounting, summary assembly and
  exit-code selection (`packages/auto-cr-cmd/src/index.ts`).

JavaScript strings are modelled as lists of UTF-16 code units
(`List Nat`) where the code reads `charCodeAt`, and as `List Char`
where the code only compares characters.  File-system access performed
by the cycle rule is abstracted into an explicit, scan-constant
environment value, reflecting that the scanned tree is read-only during
a scan.
-/

namespace AutoCR

/-! ## Source index (`sourceIndex.ts`) -/

/-- UTF-16 code units of a JavaScript string. -/
abbrev CodeUnits := List Nat

/-- `SourceIndex` from `auto-cr-rules/src/types` as used by
`sourceIndex.ts`: the module's start byte offset and the code-unit
offset of every line start. -/
structure SourceIndex where
  moduleStart : Nat
  lineOffsets : List Nat
  deriving Repr, DecidableEq

/-- The scanning loop of `createSourceIndex`: starting at code-unit
position `index`, push `i + 1` for every newline (code unit 10) at
position `i`. -/
def buildLineOffsetsAux (source : CodeUnits) (index : Nat) : List Nat :=
  match source with
  | [] => []
  | c :: rest =>
    if c = 10 then (index + 1) :: buildLineOffsetsAux rest (index + 1)
    else buildLineOffsetsAux rest (index + 1)

/-- `lineOffsets` as built by `createSourceIndex`: `[0]` followed by
`i + 1` for every `\n` at position `i`. -/
def buildLineOffsets (source : CodeUnits) : List Nat :=
  0 :: buildLineOffsetsAux source 0

/-- `createSourceIndex(source, moduleStart)`. -/
def createSourceIndex (source : CodeUnits) (moduleStart : Nat) : SourceIndex :=
  { moduleStart := moduleStart, lineOffsets := buildLineOffsets source }

/-- The binary-search loop of `resolveLine`.  `low`/`high` are JS
numbers that may go to `-1`, hence `Int`; `Math.floor((low + high) / 2)`
is floor division, which is `Int`'s `/`. -/
def resolveLineAux (offsets : List Nat) (position : Nat) (low high : Int) : Int :=
  if _h : low ≤ high then
    if offsets.getD ((low + high) / 2).toNat 0 = position then
      (low + high) / 2 + 1
    else if offsets.getD ((low + high) / 2).toNat 0 < position then
      resolveLineAux offsets position ((low + high) / 2 + 1) high
    else
      resolveLineAux offsets position low ((low + high) / 2 - 1)
  else
    high + 1
termination_by (high + 1 - low).toNat
decreasing_by
  · omega
  · omega

/-- `resolveLine(lineOffsets, position)`. -/
def resolveLine (offsets : List Nat) (position : Nat) : Int :=
  resolveLineAux offsets position 0 ((offsets.length : Int) - 1)

/-- `readUtf8Character(source, index, code)`: the UTF-8 byte width of
the character whose leading code unit is `code`, with surrogate-pair
detection, and the index of the next character. -/
def readUtf8Character (source : CodeUnits) (index : Nat) (code : Nat) : Nat × Nat :=
  if code ≤ 0x7f then (1, index + 1)
  else if code ≤ 0x7ff then (2, index + 1)
  else if 0xd800 ≤ code ∧ code ≤ 0xdbff ∧ index + 1 < source.length then
    if 0xdc00 ≤ source.getD (index + 1) 0 ∧ source.getD (index + 1) 0 ≤ 0xdfff then
      (4, index + 2)
    else (3, index + 1)
  else (3, index + 1)

theorem readUtf8Character_snd_ge (source : CodeUnits) (index code : Nat) :
    index + 1 ≤ (readUtf8Character source index code).2 := by
  unfold readUtf8Character
  split_ifs <;> simp

theorem readUtf8Character_snd_le (source : CodeUnits) (index code : Nat)
    (h : index < source.length) :
    (readUtf8Character source index code).2 ≤ source.length := by
  unfold readUtf8Character
  split_ifs with h1 h2 h3 h4 <;> simp <;> omega

/-- The scanning loop of `bytePosToCharIndex`: walk code units
accumulating UTF-8 byte widths, stopping at the first character whose
bytes would overshoot `target`. -/
def bytePosToCharIndexAux (source : CodeUnits) (target index byteOffset : Nat) : Nat :=
  if _h : index < source.length then
    if byteOffset + (readUtf8Character source index (source.getD index 0)).1 > target then
      index
    else
      bytePosToCharIndexAux source target
        (readUtf8Character source index (source.getD index 0)).2
        (byteOffset + (readUtf8Character source index (source.getD index 0)).1)
  else
    source.length
termination_by source.length - index
decreasing_by
  have := readUtf8Character_snd_ge source index (source.getD index 0)
  omega

/-- `bytePosToCharIndex(source, moduleStart, bytePos)`:
`Math.max(bytePos - moduleStart, 0)` is truncated subtraction on `Nat`. -/
def bytePosToCharIndex (source : CodeUnits) (moduleStart bytePos : Nat) : Nat :=
  if bytePos - moduleStart = 0 then 0
  else bytePosToCharIndexAux source (bytePos - moduleStart) 0 0

/-- `resolveLineFromByteOffset(source, index, byteOffset)`. -/
def resolveLineFromByteOffset (source : CodeUnits) (index : SourceIndex)
    (byteOffset : Nat) : Int :=
  resolveLine index.lineOffsets (bytePosToCharIndex source index.moduleStart byteOffset)

/-! ### Properties of the line-offset table -/

theorem buildLineOffsetsAux_mem_gt (source : CodeUnits) :
    ∀ index, ∀ x ∈ buildLineOffsetsAux source index, index < x := by
  induction source with
  | nil => intro index x hx; simp [buildLineOffsetsAux] at hx
  | cons c rest ih =>
    intro index x hx
    simp only [buildLineOffsetsAux] at hx
    by_cases hc : c = 10
    · simp [hc] at hx
      rcases hx with h | h
      · omega
      · have := ih (index + 1) x h; omega
    · simp [hc] at hx
      have := ih (index + 1) x hx; omega

theorem buildLineOffsetsAux_sorted (source : CodeUnits) :
    ∀ index, (buildLineOffsetsAux source index).Sorted (· < ·) := by
  induction source with
  | nil => intro index; simp [buildLineOffsetsAux]
  | cons c rest ih =>
    intro index
    simp only [buildLineOffsetsAux]
    by_cases hc : c = 10
    · simp only [hc, if_pos rfl]
      refine List.sorted_cons.mpr ⟨?_, ih (index + 1)⟩
      intro x hx
      have := buildLineOffsetsAux_mem_gt rest (index + 1) x hx
      omega
    · simpa [hc] using ih (index + 1)

theorem buildLineOffsets_sorted (source : CodeUnits) :
    (buildLineOffsets source).Sorted (· < ·) := by
  refine List.sorted_cons.mpr ⟨?_, buildLineOffsetsAux_sorted source 0⟩
  intro x hx
  have := buildLineOffsetsAux_mem_gt source 0 x hx
  omega

/-! ### The binary search computes the rank of the position -/

/-- If the first `k` elements satisfy `p` and the rest do not, `countP`
is `k`. -/
theorem countP_eq_of_partition (p : Nat → Bool) :
    ∀ (l : List Nat) (k : Nat) (hk : k ≤ l.length),
      (∀ i (hik : i < k), p (l.get ⟨i, lt_of_lt_of_le hik hk⟩) = true) →
      (∀ i (hil : i < l.length), k ≤ i → p (l.get ⟨i, hil⟩) = false) →
      l.countP p = k := by
  intro l
  induction l with
  | nil =>
    intro k hk _ _
    simp only [List.length_nil, Nat.le_zero] at hk
    simp [hk]
  | cons a t ih =>
    intro k hk h1 h2
    match k with
    | 0 =>
      have ha : p a = false := h2 0 (by simp) (by omega)
      have ht : t.countP p = 0 := by
        refine ih 0 (by omega) (by omega) ?_
        intro i hil _
        exact h2 (i + 1) (by simpa using Nat.succ_lt_succ hil) (by omega)
      simp [List.countP_cons, ha, ht]
    | k' + 1 =>
      have ha : p a = true := h1 0 (by omega)
      have ht : t.countP p = k' := by
        refine ih k' (by simpa using hk) ?_ ?_
        · intro i hik
          exact h1 (i + 1) (by omega)
        · intro i hil hki
          exact h2 (i + 1) (by simpa using Nat.succ_lt_succ hil) (by omega)
      simp [List.countP_cons, ha, ht]

/-- Sortedness gives monotone access. -/
theorem sorted_get_le_get {l : List Nat} (hs : l.Sorted (· < ·))
    {i j : Fin l.length} (hij : (i : Nat) ≤ (j : Nat)) : l.get i ≤ l.get j := by
  rcases Nat.eq_or_lt_of_le hij with h | h
  · have : i = j := Fin.ext h
    simp [this]
  · exact le_of_lt (List.Sorted.rel_get_of_lt hs (by exact Fin.lt_def.mpr h))

/-- Invariant-based characterisation of the search loop: with all
indices below `low` holding values `≤ position` and all indices above
`high` holding values `> position`, the loop returns the number of
offsets `≤ position`. -/
theorem resolveLineAux_eq_rank (offsets : List Nat) (position : Nat) :
    ∀ (low high : Int),
      offsets.Sorted (· < ·) →
      0 ≤ low → low ≤ high + 1 → high < (offsets.length : Int) →
      (∀ i : Fin offsets.length, (i : Int) < low → offsets.get i ≤ position) →
      (∀ i : Fin offsets.length, high < (i : Int) → position < offsets.get i) →
      resolveLineAux offsets position low high =
        (offsets.countP (fun v => decide (v ≤ position)) : Int) := by
  intro low high hs hlow hlh hhigh hbelow habove
  rw [resolveLineAux]
  by_cases hcmp : low ≤ high
  · rw [dif_pos hcmp]
    have hmid1 : low ≤ (low + high) / 2 := by omega
    have hmid2 : (low + high) / 2 ≤ high := by omega
    have hmidlt : ((low + high) / 2).toNat < offsets.length := by omega
    have hmidnn : (0 : Int) ≤ (low + high) / 2 := by omega
    set midn : Nat := ((low + high) / 2).toNat with hmidn
    have hgetd : offsets.getD midn 0 = offsets.get ⟨midn, hmidlt⟩ := by
      simp [List.getD_eq_getElem?_getD, List.getElem?_eq_getElem hmidlt]
    by_cases heq : offsets.getD midn 0 = position
    · rw [if_pos heq]
      have hrank : offsets.countP (fun v => decide (v ≤ position)) = midn + 1 := by
        refine countP_eq_of_partition _ offsets (midn + 1) (by omega) ?_ ?_
        · intro i hik
          have : offsets.get ⟨i, by omega⟩ ≤ offsets.get ⟨midn, hmidlt⟩ :=
            sorted_get_le_get hs (by simp only [Fin.val_mk]; omega)
          simp only [decide_eq_true_eq]
          rw [hgetd] at heq
          omega
        · intro i hil hki
          rw [hgetd] at heq
          simp only [decide_eq_false_iff_not, not_le]
          have hlt : offsets.get ⟨midn, hmidlt⟩ < offsets.get ⟨i, hil⟩ :=
            List.Sorted.rel_get_of_lt hs (Fin.mk_lt_mk.mpr (by omega))
          omega
      rw [hrank]
      omega
    · rw [if_neg heq]
      by_cases hlt : offsets.getD midn 0 < position
      · rw [if_pos hlt]
        refine resolveLineAux_eq_rank offsets position ((low + high) / 2 + 1) high hs
          (by omega) (by omega) hhigh ?_ habove
        intro i hi
        by_cases hcase : (i : Int) < low
        · exact hbelow i hcase
        · have hle : offsets.get ⟨(i : Nat), i.isLt⟩ ≤ offsets.get ⟨midn, hmidlt⟩ :=
            sorted_get_le_get hs (by simp only [Fin.val_mk]; omega)
          rw [hgetd] at hlt
          have hieq : offsets.get i = offsets.get ⟨(i : Nat), i.isLt⟩ := rfl
          rw [hieq]
          omega
      · rw [if_neg hlt]
        refine resolveLineAux_eq_rank offsets position low ((low + high) / 2 - 1) hs
          hlow (by omega) (by omega) hbelow ?_
        intro i hi
        by_cases hcase : high < (i : Int)
        · exact habove i hcase
        · have hge : offsets.get ⟨midn, hmidlt⟩ ≤ offsets.get ⟨(i : Nat), i.isLt⟩ :=
            sorted_get_le_get hs (by simp only [Fin.val_mk]; omega)
          rw [hgetd] at heq hlt
          have hieq : offsets.get i = offsets.get ⟨(i : Nat), i.isLt⟩ := rfl
          rw [hieq]
          omega
  · rw [dif_neg hcmp]
    have hk : low = high + 1 := by omega
    have hrank : offsets.countP (fun v => decide (v ≤ position)) = low.toNat := by
      refine countP_eq_of_partition _ offsets low.toNat (by omega) ?_ ?_
      · intro i hik
        simpa using hbelow ⟨i, by omega⟩ (by simp; omega)
      · intro i hil hki
        simp only [decide_eq_false_iff_not, not_le]
        exact habove ⟨i, hil⟩ (by simp; omega)
    rw [hrank]
    omega
termination_by low high => (high + 1 - low).toNat
decreasing_by
  · omega
  · omega

/-- `resolveLine` on a sorted offset table is the number of offsets that
are `≤ position`. -/
theorem resolveLine_eq_rank (offsets : List Nat) (position : Nat)
    (hs : offsets.Sorted (· < ·)) :
    resolveLine offsets position =
      (offsets.countP (fun v => decide (v ≤ position)) : Int) := by
  refine resolveLineAux_eq_rank offsets position 0 ((offsets.length : Int) - 1) hs
    (by omega) (by omega) (by omega) ?_ ?_
  · intro i hi
    have : (0 : Int) ≤ (i : Int) := by positivity
    omega
  · intro i hi
    have := i.isLt
    omega

/-! ### Monotonicity and bounds of the byte→char conversion -/

theorem bytePosToCharIndexAux_ge (source : CodeUnits) :
    ∀ (target index byteOffset : Nat), index ≤ source.length →
      index ≤ bytePosToCharIndexAux source target index byteOffset := by
  intro target index byteOffset hlen
  rw [bytePosToCharIndexAux]
  by_cases h : index < source.length
  · rw [dif_pos h]
    by_cases hstop :
        byteOffset + (readUtf8Character source index (source.getD index 0)).1 > target
    · rw [if_pos hstop]
    · rw [if_neg hstop]
      have hge := readUtf8Character_snd_ge source index (source.getD index 0)
      have hle := readUtf8Character_snd_le source index (source.getD index 0) h
      have := bytePosToCharIndexAux_ge source target
        (readUtf8Character source index (source.getD index 0)).2
        (byteOffset + (readUtf8Character source index (source.getD index 0)).1) hle
      omega
  · rw [dif_neg h]
    exact hlen
termination_by _ index => source.length - index
decreasing_by
  have := readUtf8Character_snd_ge source index (source.getD index 0)
  omega

theorem bytePosToCharIndexAux_mono (source : CodeUnits) :
    ∀ (t1 t2 index byteOffset : Nat), t1 ≤ t2 → index ≤ source.length →
      bytePosToCharIndexAux source t1 index byteOffset ≤
        bytePosToCharIndexAux source t2 index byteOffset := by
  intro t1 t2 index byteOffset ht hlen
  conv_lhs => rw [bytePosToCharIndexAux]
  conv_rhs => rw [bytePosToCharIndexAux]
  by_cases h : index < source.length
  · rw [dif_pos h, dif_pos h]
    by_cases hstop1 :
        byteOffset + (readUtf8Character source index (source.getD index 0)).1 > t1
    · rw [if_pos hstop1]
      by_cases hstop2 :
          byteOffset + (readUtf8Character source index (source.getD index 0)).1 > t2
      · rw [if_pos hstop2]
      · rw [if_neg hstop2]
        have hle := readUtf8Character_snd_le source index (source.getD index 0) h
        have hge := readUtf8Character_snd_ge source index (source.getD index 0)
        have := bytePosToCharIndexAux_ge source t2
          (readUtf8Character source index (source.getD index 0)).2
          (byteOffset + (readUtf8Character source index (source.getD index 0)).1) hle
        omega
    · rw [if_neg hstop1]
      have hstop2 :
          ¬ byteOffset + (readUtf8Character source index (source.getD index 0)).1 > t2 := by
        omega
      rw [if_neg hstop2]
      have hle := readUtf8Character_snd_le source index (source.getD index 0) h
      exact bytePosToCharIndexAux_mono source t1 t2
        (readUtf8Character source index (source.getD index 0)).2
        (byteOffset + (readUtf8Character source index (source.getD index 0)).1) ht hle
  · rw [dif_neg h, dif_neg h]
termination_by _ _ index => source.length - index
decreasing_by
  have := readUtf8Character_snd_ge source index (source.getD index 0)
  omega

theorem bytePosToCharIndex_mono (source : CodeUnits) (moduleStart b1 b2 : Nat)
    (h : b1 ≤ b2) :
    bytePosToCharIndex source moduleStart b1 ≤ bytePosToCharIndex source moduleStart b2 := by
  unfold bytePosToCharIndex
  by_cases h1 : b1 - moduleStart = 0
  · rw [if_pos h1]
    omega
  · rw [if_neg h1]
    have h2 : ¬ b2 - moduleStart = 0 := by omega
    rw [if_neg h2]
    exact bytePosToCharIndexAux_mono source _ _ 0 0 (by omega) (by omega)

/-! ### Line resolution on a freshly built index -/

theorem resolveLine_buildLineOffsets_zero (source : CodeUnits) :
    resolveLine (buildLineOffsets source) 0 = 1 := by
  rw [resolveLine_eq_rank _ _ (buildLineOffsets_sorted source)]
  have : (buildLineOffsets source).countP (fun v => decide (v ≤ 0)) = 1 := by
    unfold buildLineOffsets
    rw [List.countP_cons]
    have h0 : (buildLineOffsetsAux source 0).countP (fun v => decide (v ≤ 0)) = 0 := by
      rw [List.countP_eq_zero]
      intro a ha
      have hgt := buildLineOffsetsAux_mem_gt source 0 a ha
      simp only [decide_eq_true_eq]
      omega
    rw [h0]
    norm_num
  rw [this]
  norm_num

theorem resolveLine_buildLineOffsets_ge_one (source : CodeUnits) (position : Nat) :
    1 ≤ resolveLine (buildLineOffsets source) position := by
  rw [resolveLine_eq_rank _ _ (buildLineOffsets_sorted source)]
  have : 1 ≤ (buildLineOffsets source).countP (fun v => decide (v ≤ position)) := by
    unfold buildLineOffsets
    rw [List.countP_cons]
    simp
  omega

theorem resolveLine_le_length (offsets : List Nat) (position : Nat)
    (hs : offsets.Sorted (· < ·)) :
    resolveLine offsets position ≤ (offsets.length : Int) := by
  rw [resolveLine_eq_rank _ _ hs]
  have := List.countP_le_length (fun v => decide (v ≤ position)) (l := offsets)
  omega

theorem resolveLine_mono (offsets : List Nat) (p1 p2 : Nat)
    (hs : offsets.Sorted (· < ·)) (h : p1 ≤ p2) :
    resolveLine offsets p1 ≤ resolveLine offsets p2 := by
  rw [resolveLine_eq_rank _ _ hs, resolveLine_eq_rank _ _ hs]
  have : offsets.countP (fun v => decide (v ≤ p1)) ≤
      offsets.countP (fun v => decide (v ≤ p2)) := by
    refine List.countP_mono_left ?_
    intro a _ ha
    simp only [decide_eq_true_eq] at ha ⊢
    omega
  omega

/-! ### Claim theorems about the source index -/

/-- C8: on a freshly built source index, `resolveLineFromByteOffset`
applied to the byte offset `moduleStart` itself returns line 1, and the
returned line number is monotone non-decreasing in the byte offset. -/
theorem resolveLineFromByteOffset_moduleStart_and_monotone
    (source : CodeUnits) (moduleStart b1 b2 : Nat) (h : b1 ≤ b2) :
    resolveLineFromByteOffset source (createSourceIndex source moduleStart) moduleStart = 1 ∧
    resolveLineFromByteOffset source (createSourceIndex source moduleStart) b1 ≤
      resolveLineFromByteOffset source (createSourceIndex source moduleStart) b2 := by
  constructor
  · unfold resolveLineFromByteOffset createSourceIndex
    simp only
    have : bytePosToCharIndex source moduleStart moduleStart = 0 := by
      unfold bytePosToCharIndex
      simp
    rw [this]
    exact resolveLine_buildLineOffsets_zero source
  · unfold resolveLineFromByteOffset createSourceIndex
    simp only
    exact resolveLine_mono _ _ _ (buildLineOffsets_sorted source)
      (bytePosToCharIndex_mono source moduleStart b1 b2 h)

theorem resolveLineFromByteOffset_moduleStart_and_monotone_witness :
    (3 : Nat) ≤ 7 ∧
    (resolveLineFromByteOffset [97, 10, 98] (createSourceIndex [97, 10, 98] 5) 5 = 1 ∧
     resolveLineFromByteOffset [97, 10, 98] (createSourceIndex [97, 10, 98] 5) 3 ≤
       resolveLineFromByteOffset [97, 10, 98] (createSourceIndex [97, 10, 98] 5) 7) :=
  ⟨by decide,
   resolveLineFromByteOffset_moduleStart_and_monotone [97, 10, 98] 5 3 7 (by decide)⟩

/-- C10: `resolveLineFromByteOffset` is total on arbitrary byte offsets
(including offsets below `moduleStart` or past the end of the source)
and always lands in `[1, lineOffsets.length]`; offsets at or below
`moduleStart` are clamped to line 1. -/
theorem resolveLineFromByteOffset_total_range
    (source : CodeUnits) (moduleStart b : Nat) :
    (1 ≤ resolveLineFromByteOffset source (createSourceIndex source moduleStart) b ∧
     resolveLineFromByteOffset source (createSourceIndex source moduleStart) b ≤
       ((createSourceIndex source moduleStart).lineOffsets.length : Int)) ∧
    (b ≤ moduleStart →
      resolveLineFromByteOffset source (createSourceIndex source moduleStart) b = 1) := by
  refine ⟨⟨?_, ?_⟩, ?_⟩
  · unfold resolveLineFromByteOffset createSourceIndex
    exact resolveLine_buildLineOffsets_ge_one source _
  · unfold resolveLineFromByteOffset createSourceIndex
    exact resolveLine_le_length _ _ (buildLineOffsets_sorted source)
  · intro hb
    unfold resolveLineFromByteOffset createSourceIndex
    simp only
    have : bytePosToCharIndex source moduleStart b = 0 := by
      unfold bytePosToCharIndex
      have : b - moduleStart = 0 := by omega
      simp [this]
    rw [this]
    exact resolveLine_buildLineOffsets_zero source

theorem resolveLineFromByteOffset_total_range_witness :
    (1 ≤ resolveLineFromByteOffset [97, 10, 98] (createSourceIndex [97, 10, 98] 5) 99 ∧
     resolveLineFromByteOffset [97, 10, 98] (createSourceIndex [97, 10, 98] 5) 99 ≤
       ((createSourceIndex [97, 10, 98] 5).lineOffsets.length : Int)) ∧
    resolveLineFromByteOffset [97, 10, 98] (createSourceIndex [97, 10, 98] 5) 2 = 1 :=
  ⟨(resolveLineFromByteOffset_total_range [97, 10, 98] 5 99).1,
   (resolveLineFromByteOffset_total_range [97, 10, 98] 5 2).2 (by decide)⟩

/-! ## The `no-swallowed-errors` rule (`noSwallowedErrors.ts`) -/

/-- SWC statements, restricted to the shape the rule inspects: the rule
distinguishes `EmptyStatement`, `BlockStatement` (with its nested
statements) and everything else. -/
inductive Stmt where
  | empty : Stmt
  | block : List Stmt → Stmt
  | other : Stmt

/-- A span is a byte-offset range; for the rule's output only the
identity of the reported span matters. -/
structure Span where
  start : Nat
  stop : Nat
  deriving Repr, DecidableEq

/-- A `BlockStatement` as carried by `handler.body` / `finalizer`. -/
structure BlockStmt where
  span : Span
  stmts : List Stmt

/-- A `TryStatement`: `handler` is the catch clause's body (or absent),
`finalizer` the finally block (or absent). -/
structure TryStmt where
  span : Span
  handler : Option BlockStmt
  finalizer : Option BlockStmt

mutual

/-- `isExecutableStatement`: empty statements are not executable, block
statements defer to their contents, everything else is executable. -/
def isExecutableStatement : Stmt → Bool
  | Stmt.empty => false
  | Stmt.block stmts => hasExecutableStatements stmts
  | Stmt.other => true

/-- `hasExecutableStatements(statements)`:
`statements.some(isExecutableStatement)`. -/
def hasExecutableStatements : List Stmt → Bool
  | [] => false
  | s :: rest => isExecutableStatement s || hasExecutableStatements rest

end

/-- The decision the rule body takes for one try statement: `some span`
means a violation is reported at `span`, `none` means the statement is
left alone.  Mirrors the body of the `visitTryStatements` callback:
the catch/finally blocks are tested with `hasExecutableStatements`, and
the report span is `catchBlock?.span ?? finallyBlock?.span ??
tryStatement.span`. -/
def noSwallowedErrorsCheck (t : TryStmt) : Option Span :=
  let catchBlock := t.handler
  let finallyBlock := t.finalizer
  let catchHasExecutable :=
    match catchBlock with
    | some b => hasExecutableStatements b.stmts
    | none => false
  let finallyHasExecutable :=
    match finallyBlock with
    | some b => hasExecutableStatements b.stmts
    | none => false
  if catchHasExecutable || finallyHasExecutable then none
  else
    some ((catchBlock.map BlockStmt.span).getD
      ((finallyBlock.map BlockStmt.span).getD t.span))

/-! ### Spec-side reading of the same rule -/

/-- Spec wording, inert side: a statement contributes no executable
behaviour iff it is an empty statement or a block containing only such
statements, recursively. -/
inductive Inert : Stmt → Prop where
  | empty : Inert Stmt.empty
  | block (stmts : List Stmt) : (∀ s ∈ stmts, Inert s) → Inert (Stmt.block stmts)

/-- Spec wording: a block "has executable statements" iff at least one
nested statement is neither an empty statement nor a block containing
only empty statements (recursively); an absent block has none. -/
def specBlockHasExecutable : Option BlockStmt → Prop
  | some b => ∃ s ∈ b.stmts, ¬ Inert s
  | none => False

/-- Spec wording: the violation points at the catch block if present,
else the finally block, else the try statement. -/
def specReportTarget (t : TryStmt) : Span :=
  match t.handler with
  | some c => c.span
  | none =>
    match t.finalizer with
    | some f => f.span
    | none => t.span

mutual

theorem isExecutableStatement_iff (s : Stmt) :
    isExecutableStatement s = true ↔ ¬ Inert s := by
  match s with
  | Stmt.empty =>
    simp only [isExecutableStatement]
    constructor
    · intro h; cases h
    · intro h; exact absurd Inert.empty h
  | Stmt.block stmts =>
    simp only [isExecutableStatement]
    rw [hasExecutableStatements_iff stmts]
    constructor
    · rintro ⟨x, hx, hni⟩ hin
      cases hin with
      | block _ hall => exact hni (hall x hx)
    · intro h
      by_contra hne
      push_neg at hne
      exact h (Inert.block stmts (fun s hs => hne s hs))
  | Stmt.other =>
    simp only [isExecutableStatement]
    constructor
    · intro _ h; cases h
    · intro _; trivial

theorem hasExecutableStatements_iff (l : List Stmt) :
    hasExecutableStatements l = true ↔ ∃ s ∈ l, ¬ Inert s := by
  match l with
  | [] =>
    simp [hasExecutableStatements]
  | s :: rest =>
    simp only [hasExecutableStatements, Bool.or_eq_true]
    rw [isExecutableStatement_iff s, hasExecutableStatements_iff rest]
    constructor
    · rintro (h | ⟨x, hx, hni⟩)
      · exact ⟨s, by simp, h⟩
      · exact ⟨x, by simp [hx], hni⟩
    · rintro ⟨x, hx, hni⟩
      rcases List.mem_cons.mp hx with rfl | hx
      · exact Or.inl hni
      · exact Or.inr ⟨x, hx, hni⟩

end

/-- C1: the `no-swallowed-errors` rule emits a violation for a try
statement exactly when neither the catch block nor the finally block
has executable statements (in the spec's recursive sense), the reported
span is the catch block if present, else the finally block, else the
try statement, and a try statement one of whose blocks does contain an
executable statement produces no violation. -/
theorem noSwallowedErrorsCheck_correct (t : TryStmt) :
    (noSwallowedErrorsCheck t = some (specReportTarget t) ↔
      ¬ specBlockHasExecutable t.handler ∧ ¬ specBlockHasExecutable t.finalizer) ∧
    (noSwallowedErrorsCheck t = none ↔
      specBlockHasExecutable t.handler ∨ specBlockHasExecutable t.finalizer) := by
  obtain ⟨sp, oh, of⟩ := t
  have key : ∀ ob : Option BlockStmt,
      ((match ob with
        | some b => hasExecutableStatements b.stmts
        | none => false) = true) ↔ specBlockHasExecutable ob := by
    intro ob
    cases ob with
    | none => simp [specBlockHasExecutable]
    | some b => simpa [specBlockHasExecutable] using hasExecutableStatements_iff b.stmts
  rcases hcb : (match oh with
      | some b => hasExecutableStatements b.stmts
      | none => false) with _ | _ <;>
    rcases hfb : (match of with
        | some b => hasExecutableStatements b.stmts
        | none => false) with _ | _
  all_goals
    simp only [noSwallowedErrorsCheck, hcb, hfb, Bool.or_false, Bool.false_or,
      Bool.or_true, Bool.true_or, if_true, if_false, Bool.false_eq_true,
      reduceIte]
  · -- both blocks inert: violation at the spec target
    have hc : ¬ specBlockHasExecutable (TryStmt.mk sp oh of).handler := by
      rw [← key oh]; simp [hcb]
    have hf : ¬ specBlockHasExecutable (TryStmt.mk sp oh of).finalizer := by
      rw [← key of]; simp [hfb]
    have htarget :
        ((oh.map BlockStmt.span).getD ((of.map BlockStmt.span).getD sp)) =
          specReportTarget (TryStmt.mk sp oh of) := by
      cases oh <;> cases of <;> simp [specReportTarget]
    constructor
    · rw [htarget]
      simp [hc, hf]
    · constructor
      · intro h; cases h
      · rintro (h | h)
        · exact absurd h hc
        · exact absurd h hf
  · -- finally has executable statements
    have hf : specBlockHasExecutable (TryStmt.mk sp oh of).finalizer :=
      (key of).mp hfb
    constructor
    · constructor
      · intro h; cases h
      · rintro ⟨_, h2⟩; exact absurd hf h2
    · simp [hf]
  · -- catch has executable statements
    have hc : specBlockHasExecutable (TryStmt.mk sp oh of).handler :=
      (key oh).mp hcb
    constructor
    · constructor
      · intro h; cases h
      · rintro ⟨h1, _⟩; exact absurd hc h1
    · simp [hc]
  · -- both have executable statements
    have hc : specBlockHasExecutable (TryStmt.mk sp oh of).handler :=
      (key oh).mp hcb
    constructor
    · constructor
      · intro h; cases h
      · rintro ⟨h1, _⟩; exact absurd hc h1
    · simp [hc]

/-! ## The quantifier scanner of `no-catastrophic-regex` -/

/-- The result of `readQuantifier`: whether the quantifier is unbounded
and how many pattern characters it spans. -/
structure Quantifier where
  unbounded : Bool
  length : Nat
  deriving Repr, DecidableEq

/-- The `while (end < pattern.length && pattern[end] !== '}') end += 1`
loop of `readQuantifier`, returning the final value of `end`. -/
def braceScanEnd (pattern : List Char) (e : Nat) : Nat :=
  if _h : e < pattern.length then
    if pattern.getD e ' ' = '}' then e else braceScanEnd pattern (e + 1)
  else e
termination_by pattern.length - e

/-- The test `/^\d+(,\d*)?$/.test(body)`: one or more digits, optionally
followed by a comma and zero or more digits. -/
def quantBodyValid (body : List Char) : Bool :=
  let ds := body.takeWhile Char.isDigit
  let rest := body.dropWhile Char.isDigit
  (!ds.isEmpty) &&
    (rest.isEmpty || (decide (rest.head? = some ',') && rest.tail.all Char.isDigit))

/-- `readQuantifier(pattern, index)`.  `body.split(',')[1] === ''`
is rendered as "the remainder after the first comma is empty"; the
validated body has at most one comma, so the two coincide. -/
def readQuantifier (pattern : List Char) (index : Nat) : Option Quantifier :=
  if index ≥ pattern.length then none
  else
    let char := pattern.getD index ' '
    if char = '*' ∨ char = '+' then
      some ⟨true, 1 + (if pattern.get? (index + 1) = some '?' then 1 else 0)⟩
    else if char = '?' then
      some ⟨false, 1 + (if pattern.get? (index + 1) = some '?' then 1 else 0)⟩
    else if char ≠ '{' then none
    else
      let e := braceScanEnd pattern (index + 1)
      if e ≥ pattern.length then none
      else
        let body := (pattern.drop (index + 1)).take (e - (index + 1))
        if ¬ quantBodyValid body then none
        else
          some ⟨body.contains ',' && ((body.dropWhile (· != ',')).tail).isEmpty,
            e - index + 1 + (if pattern.get? (e + 1) = some '?' then 1 else 0)⟩

theorem readQuantifier_length_pos (pattern : List Char) (index : Nat) (q : Quantifier)
    (h : readQuantifier pattern index = some q) : 1 ≤ q.length := by
  simp only [readQuantifier] at h
  split_ifs at h <;>
    first
      | exact Option.noConfusion h
      | (injection h with h2; subst h2; dsimp only; omega)

/-- Mutating `stack[stack.length - 1].hasUnbounded = true` when the
stack is viewed top-first; a missing parent makes it a no-op, matching
the `if (parent …)` guards. -/
def setTop (stack : List Bool) (v : Bool) : List Bool :=
  match stack with
  | [] => []
  | _ :: rest => v :: rest

/-- The character loop of `hasNestedUnboundedQuantifier`.  The group
stack holds each frame's `hasUnbounded` flag, top first; `index` jumps
over consumed quantifiers exactly as the `index +=` statements do
(`continue` adds the loop increment of 1). -/
def hasNestedAux (pattern : List Char) (index : Nat) (stack : List Bool)
    (inCharClass escaped : Bool) : Bool :=
  if _h : index < pattern.length then
    let char := pattern.getD index ' '
    if escaped then hasNestedAux pattern (index + 1) stack inCharClass false
    else if char = '\\' then hasNestedAux pattern (index + 1) stack inCharClass true
    else if inCharClass then
      hasNestedAux pattern (index + 1) stack (if char = ']' then false else true) escaped
    else if char = '[' then hasNestedAux pattern (index + 1) stack true escaped
    else if char = '(' then hasNestedAux pattern (index + 1) (false :: stack) inCharClass escaped
    else if char = ')' then
      let current := stack.head?
      let rest := stack.tail
      let quantifier := readQuantifier pattern (index + 1)
      if ((quantifier.map Quantifier.unbounded).getD false && current.getD false) then true
      else
        let rest1 := if current.getD false then setTop rest true else rest
        let rest2 :=
          if (quantifier.map Quantifier.unbounded).getD false then setTop rest1 true else rest1
        hasNestedAux pattern (index + 1 + (quantifier.map Quantifier.length).getD 0)
          rest2 inCharClass escaped
    else
      match hq : readQuantifier pattern index with
      | some q =>
        hasNestedAux pattern (index + q.length)
          (if q.unbounded && decide (stack.length > 0) then setTop stack true else stack)
          inCharClass escaped
      | none => hasNestedAux pattern (index + 1) stack inCharClass escaped
  else false
termination_by pattern.length - index
decreasing_by
  · omega
  · omega
  · omega
  · omega
  · omega
  · omega
  · have := readQuantifier_length_pos pattern index q hq
    omega
  · omega

/-- `hasNestedUnboundedQuantifier(pattern)`. -/
def hasNestedUnboundedQuantifier (pattern : List Char) : Bool :=
  hasNestedAux pattern 0 [] false false

/-! ### Fuelled twins, so concrete patterns can be evaluated by `decide` -/

def braceScanEndFuel : Nat → List Char → Nat → Nat
  | 0, _, e => e
  | fuel + 1, pattern, e =>
    if e < pattern.length then
      if pattern.getD e ' ' = '}' then e else braceScanEndFuel fuel pattern (e + 1)
    else e

theorem braceScanEnd_eq_fuel (pattern : List Char) :
    ∀ (fuel e : Nat), pattern.length - e ≤ fuel →
      braceScanEnd pattern e = braceScanEndFuel fuel pattern e := by
  intro fuel
  induction fuel with
  | zero =>
    intro e he
    rw [braceScanEnd]
    have : ¬ e < pattern.length := by omega
    rw [dif_neg this]
    rfl
  | succ n ih =>
    intro e he
    rw [braceScanEnd, braceScanEndFuel]
    by_cases h : e < pattern.length
    · rw [dif_pos h, if_pos h]
      by_cases hc : pattern.getD e ' ' = '}'
      · rw [if_pos hc, if_pos hc]
      · rw [if_neg hc, if_neg hc]
        exact ih (e + 1) (by omega)
    · rw [dif_neg h, if_neg h]

def readQuantifierEval (pattern : List Char) (index : Nat) : Option Quantifier :=
  if index ≥ pattern.length then none
  else
    let char := pattern.getD index ' '
    if char = '*' ∨ char = '+' then
      some ⟨true, 1 + (if pattern.get? (index + 1) = some '?' then 1 else 0)⟩
    else if char = '?' then
      some ⟨false, 1 + (if pattern.get? (index + 1) = some '?' then 1 else 0)⟩
    else if char ≠ '{' then none
    else
      let e := braceScanEndFuel pattern.length pattern (index + 1)
      if e ≥ pattern.length then none
      else
        let body := (pattern.drop (index + 1)).take (e - (index + 1))
        if ¬ quantBodyValid body then none
        else
          some ⟨body.contains ',' && ((body.dropWhile (· != ',')).tail).isEmpty,
            e - index + 1 + (if pattern.get? (e + 1) = some '?' then 1 else 0)⟩

theorem readQuantifier_eq_eval (pattern : List Char) (index : Nat) :
    readQuantifier pattern index = readQuantifierEval pattern index := by
  unfold readQuantifier readQuantifierEval
  rw [braceScanEnd_eq_fuel pattern pattern.length (index + 1) (by omega)]

def hasNestedAuxFuel : Nat → List Char → Nat → List Bool → Bool → Bool → Bool
  | 0, _, _, _, _, _ => false
  | fuel + 1, pattern, index, stack, inCharClass, escaped =>
    if index < pattern.length then
      let char := pattern.getD index ' '
      if escaped then hasNestedAuxFuel fuel pattern (index + 1) stack inCharClass false
      else if char = '\\' then hasNestedAuxFuel fuel pattern (index + 1) stack inCharClass true
      else if inCharClass then
        hasNestedAuxFuel fuel pattern (index + 1) stack (if char = ']' then false else true) escaped
      else if char = '[' then hasNestedAuxFuel fuel pattern (index + 1) stack true escaped
      else if char = '(' then
        hasNestedAuxFuel fuel pattern (index + 1) (false :: stack) inCharClass escaped
      else if char = ')' then
        let current := stack.head?
        let rest := stack.tail
        let quantifier := readQuantifierEval pattern (index + 1)
        if ((quantifier.map Quantifier.unbounded).getD false && current.getD false) then true
        else
          let rest1 := if current.getD false then setTop rest true else rest
          let rest2 :=
            if (quantifier.map Quantifier.unbounded).getD false then setTop rest1 true else rest1
          hasNestedAuxFuel fuel pattern (index + 1 + (quantifier.map Quantifier.length).getD 0)
            rest2 inCharClass escaped
      else
        match readQuantifierEval pattern index with
        | some q =>
          hasNestedAuxFuel fuel pattern (index + q.length)
            (if q.unbounded && decide (stack.length > 0) then setTop stack true else stack)
            inCharClass escaped
        | none => hasNestedAuxFuel fuel pattern (index + 1) stack inCharClass escaped
    else false

theorem hasNestedAux_eq_fuel (pattern : List Char) :
    ∀ (fuel index : Nat) (stack : List Bool) (inCharClass escaped : Bool),
      pattern.length - index ≤ fuel →
      hasNestedAux pattern index stack inCharClass escaped =
        hasNestedAuxFuel fuel pattern index stack inCharClass escaped := by
  intro fuel
  induction fuel with
  | zero =>
    intro index stack inCharClass escaped he
    rw [hasNestedAux]
    have : ¬ index < pattern.length := by omega
    rw [dif_neg this]
    rfl
  | succ n ih =>
    intro index stack inCharClass escaped he
    rw [hasNestedAux, hasNestedAuxFuel]
    by_cases h : index < pattern.length
    · rw [dif_pos h, if_pos h]
      simp only [← readQuantifier_eq_eval]
      by_cases h1 : escaped
      · rw [if_pos h1, if_pos h1]
        exact ih (index + 1) stack inCharClass false (by omega)
      · rw [if_neg h1, if_neg h1]
        by_cases h2 : pattern.getD index ' ' = '\\'
        · rw [if_pos h2, if_pos h2]
          exact ih (index + 1) stack inCharClass true (by omega)
        · rw [if_neg h2, if_neg h2]
          by_cases h3 : inCharClass
          · rw [if_pos h3, if_pos h3]
            exact ih (index + 1) stack _ escaped (by omega)
          · rw [if_neg h3, if_neg h3]
            by_cases h4 : pattern.getD index ' ' = '['
            · rw [if_pos h4, if_pos h4]
              exact ih (index + 1) stack true escaped (by omega)
            · rw [if_neg h4, if_neg h4]
              by_cases h5 : pattern.getD index ' ' = '('
              · rw [if_pos h5, if_pos h5]
                exact ih (index + 1) (false :: stack) inCharClass escaped (by omega)
              · rw [if_neg h5, if_neg h5]
                by_cases h6 : pattern.getD index ' ' = ')'
                · rw [if_pos h6, if_pos h6]
                  by_cases h7 : ((readQuantifier pattern (index + 1)).map
                      Quantifier.unbounded).getD false && stack.head?.getD false
                  · rw [if_pos h7, if_pos h7]
                  · rw [if_neg h7, if_neg h7]
                    exact ih _ _ inCharClass escaped (by omega)
                · rw [if_neg h6, if_neg h6]
                  rcases hq : readQuantifier pattern index with _ | q
                  · simp only [hq]
                    exact ih (index + 1) stack inCharClass escaped (by omega)
                  · simp only [hq]
                    have := readQuantifier_length_pos pattern index q hq
                    exact ih (index + q.length) _ inCharClass escaped (by omega)
    · rw [dif_neg h, if_neg h]

theorem hasNested_eval (pattern : List Char) :
    hasNestedUnboundedQuantifier pattern =
      hasNestedAuxFuel pattern.length pattern 0 [] false false :=
  hasNestedAux_eq_fuel pattern pattern.length 0 [] false false (by omega)

/-- C3: the nested-unbounded-quantifier scanner flags `(a+)+`, `(.*)+`
and `(a{1,})*`, and does not flag the bounded `(a+){1,3}`. -/
theorem hasNestedUnboundedQuantifier_examples :
    hasNestedUnboundedQuantifier ['(', 'a', '+', ')', '+'] = true ∧
    hasNestedUnboundedQuantifier ['(', '.', '*', ')', '+'] = true ∧
    hasNestedUnboundedQuantifier ['(', 'a', '{', '1', ',', '}', ')', '*'] = true ∧
    hasNestedUnboundedQuantifier ['(', 'a', '+', ')', '{', '1', ',', '3', '}'] = false := by
  refine ⟨?_, ?_, ?_, ?_⟩ <;> rw [hasNested_eval] <;> decide

/-! ### The quantifier reader against the spec's wording -/

/-- Spec-side reading of a `{…}` quantifier body: `m` digits, then
either nothing (`{m}`), or a comma with an empty upper bound (`{m,}`,
unbounded), or a comma with a digit upper bound (`{m,n}`, bounded).
Returns the unboundedness, or `none` when the body is not a
quantifier. -/
def specBraceQuantifier (body : List Char) : Option Bool :=
  let lower := body.takeWhile Char.isDigit
  let rest := body.dropWhile Char.isDigit
  if lower.isEmpty then none
  else
    match rest with
    | [] => some false
    | c :: upper =>
      if c = ',' ∧ upper.all Char.isDigit then some upper.isEmpty else none

/-- Spec-side quantifier reader (amended): the quantifier at `index` is
`*` or `+` (unbounded), `?` (bounded), or a `{…}` form classified by
`specBraceQuantifier`; one optional greediness marker `?` directly
after the quantifier is consumed as part of its length.  (The spec's
additional claim that a trailing `+` marker is also accepted is what
the code refutes.) -/
def specReadQuantifier (pattern : List Char) (index : Nat) : Option Quantifier :=
  match
    (match pattern.get? index with
     | none => none
     | some c =>
       if c = '*' then some (true, 1)
       else if c = '+' then some (true, 1)
       else if c = '?' then some (false, 1)
       else if c = '{' then
         let e := braceScanEnd pattern (index + 1)
         if e < pattern.length then
           match specBraceQuantifier ((pattern.drop (index + 1)).take (e - (index + 1))) with
           | some u => some (u, e + 1 - index)
           | none => none
         else none
       else none : Option (Bool × Nat))
  with
  | none => none
  | some (u, len) =>
    some ⟨u, len + (if pattern.get? (index + len) = some '?' then 1 else 0)⟩

theorem braceScanEnd_ge (pattern : List Char) : ∀ e, e ≤ braceScanEnd pattern e := by
  intro e
  rw [braceScanEnd]
  by_cases h : e < pattern.length
  · rw [dif_pos h]
    by_cases hc : pattern.getD e ' ' = '}'
    · rw [if_pos hc]
    · rw [if_neg hc]
      have := braceScanEnd_ge pattern (e + 1)
      omega
  · rw [dif_neg h]
termination_by e => pattern.length - e
decreasing_by omega

theorem dropWhile_append_of_all {p : Char → Bool} :
    ∀ (l₁ l₂ : List Char), (∀ x ∈ l₁, p x = true) →
      List.dropWhile p (l₁ ++ l₂) = List.dropWhile p l₂ := by
  intro l₁ l₂ h
  induction l₁ with
  | nil => simp
  | cons a t ih =>
    simp only [List.cons_append, List.dropWhile_cons]
    rw [h a (by simp)]
    simp only [if_true]
    exact ih (fun x hx => h x (by simp [hx]))

theorem contains_eq_false_of_all_digit (l : List Char)
    (h : ∀ x ∈ l, Char.isDigit x = true) : l.contains ',' = false := by
  rcases hb : l.contains ',' with _ | _
  · rfl
  · have hmem := List.mem_of_elem_eq_true hb
    have := h ',' hmem
    simp [Char.isDigit] at this

/-- The code's body validation plus its `split(',')[1] === ''` test
agree with the spec-side classification of `{…}` bodies. -/
theorem braceBody_agree (body : List Char) :
    (quantBodyValid body = false ∧ specBraceQuantifier body = none) ∨
    (∃ u, quantBodyValid body = true ∧ specBraceQuantifier body = some u ∧
      (body.contains ',' && ((body.dropWhile (· != ',')).tail).isEmpty) = u) := by
  have hsplit := List.takeWhile_append_dropWhile (p := Char.isDigit) (l := body)
  have hdigits : ∀ x ∈ body.takeWhile Char.isDigit, Char.isDigit x = true :=
    fun x hx => List.mem_takeWhile_imp hx
  by_cases hds : (body.takeWhile Char.isDigit).isEmpty
  · left
    constructor
    · simp [quantBodyValid, hds]
    · simp [specBraceQuantifier, hds]
  · rcases hrest : body.dropWhile Char.isDigit with _ | ⟨c, upper⟩
    · right
      refine ⟨false, ?_, ?_, ?_⟩
      · simp [quantBodyValid, hds, hrest]
      · simp [specBraceQuantifier, hds, hrest]
      · conv_lhs => rw [← hsplit, hrest, List.append_nil]
        rw [contains_eq_false_of_all_digit _ hdigits]
        simp
    · by_cases hc : c = ',' ∧ upper.all Char.isDigit
      · right
        refine ⟨upper.isEmpty, ?_, ?_, ?_⟩
        · simp [quantBodyValid, hds, hrest, hc.1, hc.2]
        · simp [specBraceQuantifier, hds, hrest, hc]
        · obtain ⟨rfl, hall⟩ := hc
          conv_lhs => rw [← hsplit, hrest]
          have hconts :
              ((body.takeWhile Char.isDigit) ++ ',' :: upper).contains ',' = true :=
            List.elem_eq_true_of_mem (by simp)
          rw [hconts]
          have hdrop :
              List.dropWhile (· != ',') ((body.takeWhile Char.isDigit) ++ ',' :: upper) =
                ',' :: upper := by
            rw [dropWhile_append_of_all _ _ ?_]
            · simp [List.dropWhile_cons]
            · intro x hx
              have := hdigits x hx
              simp only [bne_iff_ne, ne_eq, decide_eq_true_eq]
              intro heq
              subst heq
              simp [Char.isDigit] at this
          rw [hdrop]
          simp
      · left
        constructor
        · by_cases hcomma : c = ','
          · subst hcomma
            have hupper : upper.all Char.isDigit = false := by
              rcases Bool.eq_false_or_eq_true (upper.all Char.isDigit) with h | h
              · exact absurd ⟨rfl, h⟩ hc
              · exact h
            simp [quantBodyValid, hrest, hupper]
          · have hhead : decide ((c :: upper).head? = some ',') = false := by
              simp [hcomma]
            simp only [quantBodyValid, hrest, hhead]
            simp [hcomma]
        · unfold specBraceQuantifier
          rw [hrest, if_neg hds]
          show (if c = ',' ∧ upper.all Char.isDigit = true then some upper.isEmpty
            else none) = none
          rw [if_neg hc]

/-- C4 (amended): `readQuantifier` classifies a quantifier as unbounded
exactly when it is `*`, `+`, or `{m,}` with an empty upper bound, and
consumes one optional trailing `?` greediness marker as part of the
quantifier's length — a trailing `+` marker is not accepted. -/
theorem readQuantifier_matches_spec (pattern : List Char) (index : Nat) :
    readQuantifier pattern index = specReadQuantifier pattern index := by
  by_cases hlen : index ≥ pattern.length
  · have hnone : pattern.get? index = none := by
      rw [List.get?_eq_getElem?]
      exact List.getElem?_eq_none (by omega)
    unfold readQuantifier specReadQuantifier
    rw [if_pos hlen, hnone]
  · have hlt : index < pattern.length := by omega
    have hget : pattern.get? index = some (pattern.getD index ' ') := by
      rw [List.get?_eq_getElem?, List.getD_eq_getElem?_getD, List.getElem?_eq_getElem hlt]
      rfl
    unfold readQuantifier specReadQuantifier
    rw [if_neg hlen, hget]
    dsimp only
    by_cases h1 : pattern.getD index ' ' = '*'
    · rw [if_pos (Or.inl h1), if_pos h1]
    · by_cases h2 : pattern.getD index ' ' = '+'
      · rw [if_pos (Or.inr h2), if_neg h1, if_pos h2]
      · have hor : ¬ (pattern.getD index ' ' = '*' ∨ pattern.getD index ' ' = '+') := by
          rintro (h | h) <;> [exact h1 h; exact h2 h]
        rw [if_neg hor, if_neg h1, if_neg h2]
        by_cases h3 : pattern.getD index ' ' = '?'
        · rw [if_pos h3, if_pos h3]
        · rw [if_neg h3, if_neg h3]
          by_cases h4 : pattern.getD index ' ' = '{'
          · rw [if_neg (by simpa using h4), if_pos h4]
            have hge := braceScanEnd_ge pattern (index + 1)
            by_cases h5 : braceScanEnd pattern (index + 1) ≥ pattern.length
            · have h5' : ¬ braceScanEnd pattern (index + 1) < pattern.length := by omega
              rw [if_pos h5, if_neg h5']
            · have h5' : braceScanEnd pattern (index + 1) < pattern.length := by omega
              rw [if_neg h5, if_pos h5']
              rcases braceBody_agree
                  ((pattern.drop (index + 1)).take
                    (braceScanEnd pattern (index + 1) - (index + 1))) with
                ⟨hv, hs⟩ | ⟨u, hv, hs, hu⟩
              · have hnv : ¬ quantBodyValid ((pattern.drop (index + 1)).take
                    (braceScanEnd pattern (index + 1) - (index + 1))) = true := by
                  rw [hv]; exact Bool.false_ne_true
                rw [if_pos hnv, hs]
              · have hnn : ¬ ¬ quantBodyValid ((pattern.drop (index + 1)).take
                    (braceScanEnd pattern (index + 1) - (index + 1))) = true := by
                  rw [hv]; simp
                rw [if_neg hnn, hs, hu]
                dsimp only
                have harith1 :
                    braceScanEnd pattern (index + 1) - index + 1 =
                      braceScanEnd pattern (index + 1) + 1 - index := by omega
                have harith2 :
                    index + (braceScanEnd pattern (index + 1) + 1 - index) =
                      braceScanEnd pattern (index + 1) + 1 := by omega
                rw [harith1, harith2]
          · rw [if_pos (by simpa using h4), if_neg h4]

/-- C4, counterexample to the claim as stated: in the pattern `*+` the
`*` quantifier is followed by a `+` greediness marker, but the reader
does not consume it — the quantifier's length is 1, not 2. -/
theorem readQuantifier_plus_marker_counterexample :
    readQuantifier ['*', '+'] 0 = some ⟨true, 1⟩ ∧
    readQuantifier ['*', '+'] 0 ≠ some ⟨true, 2⟩ := by
  rw [readQuantifier_eq_eval]
  constructor <;> decide

/-! ## Scan orchestrator accounting (`auto-cr-cmd/src/index.ts`) -/

/-- Rule severities. -/
inductive Severity where
  | error
  | warning
  | optimizing
  deriving Repr, DecidableEq

/-- A reported violation; only the pieces the accounting reads. -/
structure Violation where
  severity : Severity
  message : String
  deriving Repr, DecidableEq

/-- `FileSeveritySummary` from `scan/types`. -/
structure FileSeveritySummary where
  error : Nat
  warning : Nat
  optimizing : Nat
  deriving Repr, DecidableEq

/-- `AnalyzeFileSummary` from `scan/types`. -/
structure AnalyzeFileSummary where
  severityCounts : FileSeveritySummary
  totalViolations : Nat
  errorViolations : Nat
  violations : List Violation
  deriving Repr, DecidableEq

/-- Notification levels. -/
inductive NotificationLevel where
  | info
  | warn
  | error
  deriving Repr, DecidableEq

/-- A scan notification. -/
structure Notification where
  level : NotificationLevel
  message : String
  deriving Repr, DecidableEq

/-- CLI languages. -/
inductive Language where
  | zh
  | en
  deriving Repr, DecidableEq

/-- `t.parseFileFailed({file})` from `i18n/index.ts`. -/
def parseFileFailed (lang : Language) (file : String) : String :=
  match lang with
  | Language.zh => "解析文件失败: " ++ file
  | Language.en => "Failed to parse file: " ++ file

/-- Modelled from the spec: the reporter's `flush()` with severity
accounting (`createReporter` in `auto-cr-cmd/src/report`) is not among
the provided sources — only its callers in `analyzeFile` are.  Per the
spec, `flush` snapshots the collected violations, `severityCounts`
counts the violations of each severity, `totalViolations` is their
number, and `errorViolations` equals the count of error-severity
violations. -/
def reporterFlush (violations : List Violation) : AnalyzeFileSummary :=
  { severityCounts :=
      { error := violations.countP (fun v => decide (v.severity = Severity.error))
        warning := violations.countP (fun v => decide (v.severity = Severity.warning))
        optimizing := violations.countP (fun v => decide (v.severity = Severity.optimizing)) }
    totalViolations := violations.length
    errorViolations := violations.countP (fun v => decide (v.severity = Severity.error))
    violations := violations }

/-- `analyzeFile(file, rules, format, log)`.  Parsing is abstracted:
`parsed = none` models `parseSync` throwing, `some ()` a successful
parse.  `pushed` is the list of violations the rules report for this
file; the summary of a successful file is the reporter flush over them.
Returned alongside are the notifications this call logs (the
rule-execution-failure notifications of the success path play no role
in the checked claims and are not modelled). -/
def analyzeFile (lang : Language) (file : String) (parsed : Option Unit)
    (pushed : List Violation) : AnalyzeFileSummary × List Notification :=
  match parsed with
  | none =>
    ({ severityCounts := { error := 1, warning := 0, optimizing := 0 }
       totalViolations := 1
       errorViolations := 1
       violations := [] },
     [{ level := NotificationLevel.error, message := parseFileFailed lang file }])
  | some _ => (reporterFlush pushed, [])

/-- The accumulator threaded through the per-file loop of `run`. -/
structure ScanAcc where
  filesWithErrors : Nat
  filesWithWarnings : Nat
  filesWithOptimizing : Nat
  totalViolations : Nat
  totalErrorViolations : Nat
  totalWarningViolations : Nat
  totalOptimizingViolations : Nat
  fileSummaries : List (String × AnalyzeFileSummary)
  deriving Repr, DecidableEq

def emptyScanAcc : ScanAcc :=
  { filesWithErrors := 0, filesWithWarnings := 0, filesWithOptimizing := 0
    totalViolations := 0, totalErrorViolations := 0, totalWarningViolations := 0
    totalOptimizingViolations := 0, fileSummaries := [] }

/-- `applyFileSummary(filePath, summary)`: the counter updates of the
scan loop. -/
def applyFileSummary (acc : ScanAcc) (filePath : String)
    (summary : AnalyzeFileSummary) : ScanAcc :=
  { filesWithErrors :=
      acc.filesWithErrors + (if summary.severityCounts.error > 0 then 1 else 0)
    filesWithWarnings :=
      acc.filesWithWarnings + (if summary.severityCounts.warning > 0 then 1 else 0)
    filesWithOptimizing :=
      acc.filesWithOptimizing + (if summary.severityCounts.optimizing > 0 then 1 else 0)
    totalViolations := acc.totalViolations + summary.totalViolations
    totalErrorViolations := acc.totalErrorViolations + summary.errorViolations
    totalWarningViolations := acc.totalWarningViolations + summary.severityCounts.warning
    totalOptimizingViolations :=
      acc.totalOptimizingViolations + summary.severityCounts.optimizing
    fileSummaries := acc.fileSummaries ++ [(filePath, summary)] }

/-- `ScanSummary.violationTotals`. -/
structure ViolationTotals where
  total : Nat
  error : Nat
  warning : Nat
  optimizing : Nat
  deriving Repr, DecidableEq

/-- `ScanSummary` as assembled by `run`. -/
structure ScanSummary where
  scannedFiles : Nat
  filesWithErrors : Nat
  filesWithWarnings : Nat
  filesWithOptimizing : Nat
  violationTotals : ViolationTotals
  files : List (String × AnalyzeFileSummary)
  deriving Repr, DecidableEq

/-- One scannable file as the scan loop sees it. -/
structure FileInput where
  path : String
  parsed : Option Unit
  pushed : List Violation
  deriving Repr, DecidableEq

/-- One iteration of the `for (const file of scannableFiles)` loop:
analyse the file, log its notifications, apply its summary. -/
def scanStep (lang : Language) (acc : ScanAcc × List Notification) (f : FileInput) :
    ScanAcc × List Notification :=
  (applyFileSummary acc.1 f.path (analyzeFile lang f.path f.parsed f.pushed).1,
   acc.2 ++ (analyzeFile lang f.path f.parsed f.pushed).2)

/-- The per-file loop of `run`: analyse each scannable file in input
order and fold the summaries through `applyFileSummary`; the final
`ScanSummary` is assembled from the accumulator, with `scannedFiles`
the number of scannable files.  Notifications logged per file are
concatenated in loop order. -/
def runScan (lang : Language) (files : List FileInput) : ScanSummary × List Notification :=
  let result := files.foldl (scanStep lang) (emptyScanAcc, [])
  ({ scannedFiles := files.length
     filesWithErrors := result.1.filesWithErrors
     filesWithWarnings := result.1.filesWithWarnings
     filesWithOptimizing := result.1.filesWithOptimizing
     violationTotals :=
       { total := result.1.totalViolations
         error := result.1.totalErrorViolations
         warning := result.1.totalWarningViolations
         optimizing := result.1.totalOptimizingViolations }
     files := result.1.fileSummaries },
   result.2)

/-- The empty summary returned by the early-exit paths of `run`
(no paths provided, all paths missing, no scannable files, no rules). -/
def emptySummary : ScanSummary :=
  { scannedFiles := 0, filesWithErrors := 0, filesWithWarnings := 0
    filesWithOptimizing := 0
    violationTotals := { total := 0, error := 0, warning := 0, optimizing := 0 }
    files := [] }

/-- The two ways `run` can return a summary. -/
inductive RunOutcome where
  | earlyEmpty
  | scanned (lang : Language) (files : List FileInput)

/-- The summary `run` returns for an outcome. -/
def runSummary : RunOutcome → ScanSummary
  | RunOutcome.earlyEmpty => emptySummary
  | RunOutcome.scanned lang files => (runScan lang files).1

/-- Output formats of the CLI. -/
inductive OutputFormat where
  | text
  | json
  deriving Repr, DecidableEq

/-- How the main IIFE ends: `run` either throws (fatal) or returns a
summary. -/
inductive MainResult where
  | fatal
  | ok (result : ScanSummary)

/-- The exit-code selection of the main IIFE: a fatal error exits 1; in
json mode the code is 1 iff some file has errors; in text mode the same
choice is made when at least one file was scanned, and 0 otherwise. -/
def mainExitCode (format : OutputFormat) (r : MainResult) : Nat :=
  match r with
  | MainResult.fatal => 1
  | MainResult.ok result =>
    match format with
    | OutputFormat.json => if result.filesWithErrors > 0 then 1 else 0
    | OutputFormat.text =>
      if result.scannedFiles > 0 then
        if result.filesWithErrors > 0 then 1 else 0
      else 0

/-! ### Closed forms for the scan fold -/

/-- The per-file summary `analyzeFile` yields, as a function. -/
def fileSummaryOf (lang : Language) (f : FileInput) : AnalyzeFileSummary :=
  (analyzeFile lang f.path f.parsed f.pushed).1

theorem scanFold_spec (lang : Language) :
    ∀ (files : List FileInput) (acc : ScanAcc × List Notification),
      ((files.foldl (scanStep lang) acc).1.filesWithErrors =
        acc.1.filesWithErrors + files.countP (fun f =>
          decide (0 < (fileSummaryOf lang f).severityCounts.error))) ∧
      ((files.foldl (scanStep lang) acc).1.totalViolations =
        acc.1.totalViolations + (files.map (fun f =>
          (fileSummaryOf lang f).totalViolations)).sum) ∧
      ((files.foldl (scanStep lang) acc).1.totalErrorViolations =
        acc.1.totalErrorViolations + (files.map (fun f =>
          (fileSummaryOf lang f).errorViolations)).sum) ∧
      ((files.foldl (scanStep lang) acc).1.totalWarningViolations =
        acc.1.totalWarningViolations + (files.map (fun f =>
          (fileSummaryOf lang f).severityCounts.warning)).sum) ∧
      ((files.foldl (scanStep lang) acc).1.totalOptimizingViolations =
        acc.1.totalOptimizingViolations + (files.map (fun f =>
          (fileSummaryOf lang f).severityCounts.optimizing)).sum) ∧
      ((files.foldl (scanStep lang) acc).1.fileSummaries =
        acc.1.fileSummaries ++ files.map (fun f => (f.path, fileSummaryOf lang f))) := by
  intro files
  induction files with
  | nil =>
    intro acc
    simp [List.foldl]
  | cons f rest ih =>
    intro acc
    simp only [List.foldl_cons, List.countP_cons, List.map_cons, List.sum_cons]
    obtain ⟨h1, h2, h3, h4, h5, h6⟩ := ih (scanStep lang acc f)
    refine ⟨?_, ?_, ?_, ?_, ?_, ?_⟩
    · rw [h1, show (scanStep lang acc f).1.filesWithErrors =
          acc.1.filesWithErrors +
            (if 0 < (fileSummaryOf lang f).severityCounts.error then 1 else 0) from rfl]
      by_cases hp : 0 < (fileSummaryOf lang f).severityCounts.error
      · simp [hp]
        omega
      · simp [hp]
    · rw [h2, show (scanStep lang acc f).1.totalViolations =
          acc.1.totalViolations + (fileSummaryOf lang f).totalViolations from rfl]
      omega
    · rw [h3, show (scanStep lang acc f).1.totalErrorViolations =
          acc.1.totalErrorViolations + (fileSummaryOf lang f).errorViolations from rfl]
      omega
    · rw [h4, show (scanStep lang acc f).1.totalWarningViolations =
          acc.1.totalWarningViolations + (fileSummaryOf lang f).severityCounts.warning from rfl]
      omega
    · rw [h5, show (scanStep lang acc f).1.totalOptimizingViolations =
          acc.1.totalOptimizingViolations +
            (fileSummaryOf lang f).severityCounts.optimizing from rfl]
      omega
    · rw [h6, show (scanStep lang acc f).1.fileSummaries =
          acc.1.fileSummaries ++ [(f.path, fileSummaryOf lang f)] from rfl]
      simp

theorem analyzeFile_error_eq (lang : Language) (file : String) (parsed : Option Unit)
    (pushed : List Violation) :
    (analyzeFile lang file parsed pushed).1.errorViolations =
      (analyzeFile lang file parsed pushed).1.severityCounts.error := by
  cases parsed <;> rfl

/-! ### Claim theorems about the orchestrator -/

/-- C7: the summary's violation totals are the sums of the per-file
figures: `total` is the sum of `totalViolations`, and the `error` /
`warning` / `optimizing` totals are the sums of the per-file severity
counts. -/
theorem violationTotals_are_sums (lang : Language) (files : List FileInput) :
    ((runScan lang files).1.violationTotals.total =
      ((runScan lang files).1.files.map (fun e => e.2.totalViolations)).sum) ∧
    ((runScan lang files).1.violationTotals.error =
      ((runScan lang files).1.files.map (fun e => e.2.severityCounts.error)).sum) ∧
    ((runScan lang files).1.violationTotals.warning =
      ((runScan lang files).1.files.map (fun e => e.2.severityCounts.warning)).sum) ∧
    ((runScan lang files).1.violationTotals.optimizing =
      ((runScan lang files).1.files.map (fun e => e.2.severityCounts.optimizing)).sum) := by
  obtain ⟨h1, h2, h3, h4, h5, h6⟩ := scanFold_spec lang files (emptyScanAcc, [])
  have hfiles : (runScan lang files).1.files =
      files.map (fun f => (f.path, fileSummaryOf lang f)) := by
    show (files.foldl (scanStep lang) (emptyScanAcc, [])).1.fileSummaries = _
    rw [h6]
    rfl
  refine ⟨?_, ?_, ?_, ?_⟩
  · show (files.foldl (scanStep lang) (emptyScanAcc, [])).1.totalViolations =
      ((runScan lang files).1.files.map (fun e => e.2.totalViolations)).sum
    rw [h2, hfiles, List.map_map]
    simp only [emptyScanAcc, Nat.zero_add]
    rfl
  · show (files.foldl (scanStep lang) (emptyScanAcc, [])).1.totalErrorViolations =
      ((runScan lang files).1.files.map (fun e => e.2.severityCounts.error)).sum
    rw [h3, hfiles, List.map_map]
    have : (files.map (fun f => (fileSummaryOf lang f).errorViolations)).sum =
        (files.map (fun f => (fileSummaryOf lang f).severityCounts.error)).sum := by
      congr 1
      apply List.map_congr_left
      intro f _
      exact analyzeFile_error_eq lang f.path f.parsed f.pushed
    rw [this]
    simp only [emptyScanAcc, Nat.zero_add]
    rfl
  · show (files.foldl (scanStep lang) (emptyScanAcc, [])).1.totalWarningViolations =
      ((runScan lang files).1.files.map (fun e => e.2.severityCounts.warning)).sum
    rw [h4, hfiles, List.map_map]
    simp only [emptyScanAcc, Nat.zero_add]
    rfl
  · show (files.foldl (scanStep lang) (emptyScanAcc, [])).1.totalOptimizingViolations =
      ((runScan lang files).1.files.map (fun e => e.2.severityCounts.optimizing)).sum
    rw [h5, hfiles, List.map_map]
    simp only [emptyScanAcc, Nat.zero_add]
    rfl

theorem runSummary_filesWithErrors_le (ro : RunOutcome) :
    (runSummary ro).filesWithErrors ≤ (runSummary ro).scannedFiles := by
  cases ro with
  | earlyEmpty => simp [runSummary, emptySummary]
  | scanned lang files =>
    obtain ⟨h1, _, _, _, _, _⟩ := scanFold_spec lang files (emptyScanAcc, [])
    show (files.foldl (scanStep lang) (emptyScanAcc, [])).1.filesWithErrors ≤ files.length
    rw [h1]
    have hcount := List.countP_le_length
      (fun f => decide (0 < (fileSummaryOf lang f).severityCounts.error)) (l := files)
    simp only [emptyScanAcc]
    omega

/-- C5: the process exit code is 1 exactly when a fatal scan error
occurred or at least one scanned file has an error-severity violation
(`filesWithErrors > 0`); in every other case — including a scan of zero
files — it is 0. -/
theorem mainExitCode_spec (format : OutputFormat) (ro : RunOutcome) :
    mainExitCode format MainResult.fatal = 1 ∧
    (mainExitCode format (MainResult.ok (runSummary ro)) = 1 ↔
      0 < (runSummary ro).filesWithErrors) ∧
    (mainExitCode format (MainResult.ok (runSummary ro)) = 0 ↔
      (runSummary ro).filesWithErrors = 0) := by
  have hle := runSummary_filesWithErrors_le ro
  refine ⟨rfl, ?_, ?_⟩ <;>
    cases format <;>
      simp only [mainExitCode] <;>
        by_cases hs : (runSummary ro).scannedFiles > 0 <;>
          by_cases he : (runSummary ro).filesWithErrors > 0 <;>
            simp [hs, he] <;> omega

/-- C6: when a file's parse fails, `analyzeFile` logs an error-level
notification whose message mentions the file, and the file's summary
has `errorViolations = 1`, `totalViolations = 1`,
`severityCounts.error = 1` and an empty violations list; the scan loop
still produces one result per scannable file. -/
theorem parseFailure_spec (lang : Language) (file : String) (pushed : List Violation) :
    (∃ n ∈ (analyzeFile lang file none pushed).2,
      n.level = NotificationLevel.error ∧
      ∃ pre post, n.message = pre ++ file ++ post) ∧
    (analyzeFile lang file none pushed).1.errorViolations = 1 ∧
    (analyzeFile lang file none pushed).1.totalViolations = 1 ∧
    (analyzeFile lang file none pushed).1.severityCounts.error = 1 ∧
    (analyzeFile lang file none pushed).1.violations = [] ∧
    (∀ files : List FileInput, ((runScan lang files).1.files).length = files.length) := by
  refine ⟨?_, rfl, rfl, rfl, rfl, ?_⟩
  · refine ⟨{ level := NotificationLevel.error, message := parseFileFailed lang file },
      by simp [analyzeFile], rfl, ?_⟩
    cases lang with
    | zh =>
      refine ⟨"解析文件失败: ", "", ?_⟩
      simp [parseFileFailed]
    | en =>
      refine ⟨"Failed to parse file: ", "", ?_⟩
      simp [parseFileFailed]
  · intro files
    obtain ⟨_, _, _, _, _, h6⟩ := scanFold_spec lang files (emptyScanAcc, [])
    show ((files.foldl (scanStep lang) (emptyScanAcc, [])).1.fileSummaries).length =
      files.length
    rw [h6]
    simp [emptyScanAcc]

/-! ## The `no-circular-dependencies` rule (`noCircularDependencies.ts`) -/

/-- `MAX_GRAPH_NODES`. -/
def MAX_GRAPH_NODES : Nat := 2000

/-- `MAX_GRAPH_DEPTH`. -/
def MAX_GRAPH_DEPTH : Nat := 80

/-- The module-level `resolvedImportCache`: a `Map` modelled as an
insert-at-front association list whose first binding wins, which gives
`Map.set` overwrite semantics. -/
abbrev ImportCache := List (String × List String)

def cacheGet (cache : ImportCache) (key : String) : Option (List String) :=
  match cache with
  | [] => none
  | (k, v) :: rest => if k = key then some v else cacheGet rest key

def cacheSet (cache : ImportCache) (key : String) (value : List String) : ImportCache :=
  (key, value) :: cache

/-- The file system visible to the rule, constant during a scan (the
scanned tree is read-only).  `fsImports f` is what the cache-miss path
of `getResolvedImports` computes for file `f`: read the file, extract
the import specifiers with the regex scan, resolve each relative one with
`resolveImportFile`, deduplicate (unreadable files yield `[]`).
`resolveSpec fromFile specifier` is `resolveImportFile(fromFile,
specifier, root)`: `none` when the specifier is not relative, does not
resolve to a file inside the project root, or lands on a `.d.ts`. -/
structure FsModel where
  fsImports : String → List String
  resolveSpec : String → String → Option String

/-- `getResolvedImports(filePath, root)`: consult the cache, otherwise
compute from the file system and cache the result. -/
def getResolvedImports (fs : FsModel) (filePath : String) (cache : ImportCache) :
    List String × ImportCache :=
  match cacheGet cache filePath with
  | some cached => (cached, cache)
  | none => (fs.fsImports filePath, cacheSet cache filePath (fs.fsImports filePath))

/-- The mutable state of one `findPathToOrigin` search: the node
counter, the `visiting` and `deadEnds` sets, plus the module-level
cache the search reads and extends through `getResolvedImports`. -/
structure WalkState where
  nodesVisited : Nat
  visiting : List String
  deadEnds : List String
  cache : ImportCache

mutual

/-- The recursive `walk(current, depth)` of `findPathToOrigin`. -/
def walk (fs : FsModel) (origin current : String) (depth : Nat) (st : WalkState) :
    Option (List String) × WalkState :=
  if _hd : depth > MAX_GRAPH_DEPTH then (none, st)
  else if current = origin then (some [origin], st)
  else if current ∈ st.deadEnds then (none, st)
  else if current ∈ st.visiting then (none, st)
  else
    let stCounted : WalkState := { st with nodesVisited := st.nodesVisited + 1 }
    if stCounted.nodesVisited > MAX_GRAPH_NODES then (none, stCounted)
    else
      let stVisiting : WalkState :=
        { stCounted with visiting := current :: stCounted.visiting }
      let nb := getResolvedImports fs current stVisiting.cache
      let stReady : WalkState := { stVisiting with cache := nb.2 }
      match walkNeighbors fs origin (depth + 1) stReady nb.1 with
      | (some result, stAfter) =>
        (some (current :: result),
         { stAfter with visiting := stAfter.visiting.erase current })
      | (none, stAfter) =>
        (none,
         { stAfter with
             visiting := stAfter.visiting.erase current
             deadEnds := current :: stAfter.deadEnds })
termination_by (MAX_GRAPH_DEPTH + 2 - depth, 0, 0)

/-- The `for (const next of neighbors)` loop: try each neighbour at the
incremented depth, returning the first path found. -/
def walkNeighbors (fs : FsModel) (origin : String) (depth : Nat) (st : WalkState) :
    List String → Option (List String) × WalkState
  | [] => (none, st)
  | next :: rest =>
    match walk fs origin next depth st with
    | (some result, st2) => (some result, st2)
    | (none, st2) => walkNeighbors fs origin depth st2 rest
termination_by l => (MAX_GRAPH_DEPTH + 2 - depth, 1, l.length)

end

/-- `findPathToOrigin(start, origin, root)`: run the walk from fresh
search state over the current cache, and keep the extended cache. -/
def findPathToOrigin (fs : FsModel) (start origin : String) (cache : ImportCache) :
    Option (List String) × ImportCache :=
  let r := walk fs origin start 0
    { nodesVisited := 0, visiting := [], deadEnds := [], cache := cache }
  (r.1, r.2.cache)

/-- C9: the `findPathToOrigin` search is a total function on every
(possibly cyclic) import graph — its recursion is bounded by the depth
cap, as witnessed by the acceptance of `walk` as terminating — and its
caps behave as stated: a call beyond `MAX_GRAPH_DEPTH = 80` returns
`null` without touching the state; once more than
`MAX_GRAPH_NODES = 2000` nodes have been visited every non-origin node
yields `null`; and a node on the current DFS stack (`visiting`) or
proved non-returning (`deadEnds`) is never re-expanded: the call
returns `null` with the search state unchanged. -/
theorem walk_caps :
    (∀ (fs : FsModel) (origin current : String) (depth : Nat) (st : WalkState),
      depth > MAX_GRAPH_DEPTH → walk fs origin current depth st = (none, st)) ∧
    (∀ (fs : FsModel) (origin current : String) (depth : Nat) (st : WalkState),
      st.nodesVisited ≥ MAX_GRAPH_NODES → current ≠ origin →
      (walk fs origin current depth st).1 = none) ∧
    (∀ (fs : FsModel) (origin current : String) (depth : Nat) (st : WalkState),
      current ≠ origin → (current ∈ st.deadEnds ∨ current ∈ st.visiting) →
      walk fs origin current depth st = (none, st)) := by
  refine ⟨?_, ?_, ?_⟩
  · intro fs origin current depth st hd
    rw [walk]
    rw [dif_pos hd]
  · intro fs origin current depth st hnodes hne
    rw [walk]
    by_cases hd : depth > MAX_GRAPH_DEPTH
    · rw [dif_pos hd]
    · rw [dif_neg hd, if_neg hne]
      by_cases hdead : current ∈ st.deadEnds
      · rw [if_pos hdead]
      · rw [if_neg hdead]
        by_cases hvis : current ∈ st.visiting
        · rw [if_pos hvis]
        · rw [if_neg hvis]
          have hcap : st.nodesVisited + 1 > MAX_GRAPH_NODES := by
            unfold MAX_GRAPH_NODES at hnodes ⊢
            omega
          rw [if_pos hcap]
  · intro fs origin current depth st hne hmem
    rw [walk]
    by_cases hd : depth > MAX_GRAPH_DEPTH
    · rw [dif_pos hd]
    · rw [dif_neg hd, if_neg hne]
      rcases hmem with hdead | hvis
      · rw [if_pos hdead]
      · by_cases hdead : current ∈ st.deadEnds
        · rw [if_pos hdead]
        · rw [if_neg hdead, if_pos hvis]

/-- A trivial concrete environment for witnesses: no file resolves
anything. -/
def emptyFs : FsModel :=
  { fsImports := fun _ => [], resolveSpec := fun _ _ => none }

theorem walk_caps_witness :
    ((81 : Nat) > MAX_GRAPH_DEPTH ∧
      walk emptyFs "o" "a" 81 ⟨0, [], [], []⟩ = (none, ⟨0, [], [], []⟩)) ∧
    ((2000 : Nat) ≥ MAX_GRAPH_NODES ∧ ("a" : String) ≠ "o" ∧
      (walk emptyFs "o" "a" 0 ⟨2000, [], [], []⟩).1 = none) ∧
    (("a" : String) ∈ ["a"] ∧
      walk emptyFs "o" "a" 0 ⟨0, [], ["a"], []⟩ = (none, ⟨0, [], ["a"], []⟩)) :=
  ⟨⟨by decide, walk_caps.1 emptyFs "o" "a" 81 ⟨0, [], [], []⟩ (by decide)⟩,
   ⟨by decide, by decide,
    walk_caps.2.1 emptyFs "o" "a" 0 ⟨2000, [], [], []⟩ (by decide) (by decide)⟩,
   ⟨by decide,
    walk_caps.2.2 emptyFs "o" "a" 0 ⟨0, [], ["a"], []⟩ (by decide)
      (Or.inl (by decide))⟩⟩

/-! ### The rule body -/

/-- `helpers.isRelativePath(s)` / `value.startsWith('.')`: a
one-character `startsWith` is a head-character test. -/
def isRelativeSpecifier (s : String) : Bool :=
  s.data.head? = some '.'

/-- `buildCycleKey(cycle)`.  `path.normalize` is the identity on the
already-resolved absolute paths the rule stores and is modelled as
such.  The source starts the rotation loop at index 1 with the
unrotated join as initial best; folding over all indices including 0 is
equivalent because rotation 0 is that initial best. -/
def buildCycleKey (cycle : List String) : String :=
  if cycle.length ≤ 2 then String.intercalate "->" cycle
  else
    let unique := cycle.dropLast
    (List.range unique.length).foldl
      (fun best index =>
        let candidate := String.intercalate "->" (unique.drop index ++ unique.take index)
        if candidate < best then candidate else best)
      (String.intercalate "->" unique)

/-- `resolveFromReferences(origin, references, root)`: resolve the
relative specifiers of the rule context's import list into a
deduplicated list (`Set` iteration preserves insertion order). -/
def resolveFromReferences (fs : FsModel) (origin : String)
    (references : List String) : List String :=
  ((references.filter (fun r => isRelativeSpecifier r)).filterMap
    (fun r => fs.resolveSpec origin r)).eraseDups

/-- The module-level state of the rule: `resolvedImportCache` and
`reportedCycles`, both living for the process lifetime. -/
structure CycleRuleState where
  cache : ImportCache
  reported : List String

/-- The accumulator of the per-reference loop of the rule body. -/
structure RuleLoopAcc where
  violations : List (List String)
  cache : ImportCache
  reported : List String

/-- One iteration of `for (const reference of helpers.imports)`: skip
non-relative or unresolvable specifiers, search for a path back to the
origin, and report the cycle unless its canonical key was already
reported.  A violation is recorded as the discovered cycle
`[origin, …, origin]`; message, `code`, suggestions and line of the
real `ViolationRecord` are all functions of that cycle and the
triggering reference. -/
def cycleLoopStep (fs : FsModel) (origin : String) (acc : RuleLoopAcc)
    (reference : String) : RuleLoopAcc :=
  if ¬ isRelativeSpecifier reference then acc
  else
    match fs.resolveSpec origin reference with
    | none => acc
    | some target =>
      let fp := findPathToOrigin fs target origin acc.cache
      match fp.1 with
      | none => { acc with cache := fp.2 }
      | some pathToOrigin =>
        let cycle := origin :: pathToOrigin
        let cycleKey := buildCycleKey cycle
        if cycleKey ∈ acc.reported then { acc with cache := fp.2 }
        else
          { violations := acc.violations ++ [cycle]
            cache := fp.2
            reported := cycleKey :: acc.reported }

/-- The body of the `no-circular-dependencies` rule for one file:
seed the cache with the SWC-derived import list of the origin, loop
over the references, and return the violations together with the
updated module-level state. -/
def noCircularDependenciesRun (fs : FsModel) (filePath : String)
    (imports : List String) (st : CycleRuleState) :
    List (List String) × CycleRuleState :=
  let origin := filePath
  let cache0 := cacheSet st.cache origin (resolveFromReferences fs origin imports)
  let result := imports.foldl (cycleLoopStep fs origin)
    { violations := [], cache := cache0, reported := st.reported }
  (result.violations, { cache := result.cache, reported := result.reported })

/-! ### Suppression of already-reported cycles -/

theorem cycleLoopStep_cases (fs : FsModel) (origin : String) (acc : RuleLoopAcc)
    (reference : String) :
    ((cycleLoopStep fs origin acc reference).violations = acc.violations ∧
     (cycleLoopStep fs origin acc reference).reported = acc.reported) ∨
    (∃ c, (cycleLoopStep fs origin acc reference).violations = acc.violations ++ [c] ∧
      (cycleLoopStep fs origin acc reference).reported =
        buildCycleKey c :: acc.reported ∧
      buildCycleKey c ∉ acc.reported) := by
  unfold cycleLoopStep
  by_cases h1 : ¬ isRelativeSpecifier reference
  · rw [if_pos h1]
    exact Or.inl ⟨rfl, rfl⟩
  · rw [if_neg h1]
    rcases fs.resolveSpec origin reference with _ | target
    · exact Or.inl ⟨rfl, rfl⟩
    · rcases hfp : (findPathToOrigin fs target origin acc.cache).1 with _ | pathToOrigin
      · simp only [hfp]
        refine Or.inl ⟨?_, ?_⟩ <;> simp
      · simp only [hfp]
        by_cases hk : buildCycleKey (origin :: pathToOrigin) ∈ acc.reported
        · rw [if_pos hk]
          exact Or.inl ⟨rfl, rfl⟩
        · rw [if_neg hk]
          exact Or.inr ⟨origin :: pathToOrigin, rfl, rfl, hk⟩

theorem cycleLoop_invariant (fs : FsModel) (origin : String) :
    ∀ (references : List String) (acc : RuleLoopAcc),
      (∀ k ∈ acc.reported, k ∈ (references.foldl (cycleLoopStep fs origin) acc).reported) ∧
      (∀ c ∈ (references.foldl (cycleLoopStep fs origin) acc).violations,
        c ∈ acc.violations ∨
          (buildCycleKey c ∈ (references.foldl (cycleLoopStep fs origin) acc).reported ∧
           buildCycleKey c ∉ acc.reported)) := by
  intro references
  induction references with
  | nil =>
    intro acc
    exact ⟨fun k hk => hk, fun c hc => Or.inl hc⟩
  | cons r rest ih =>
    intro acc
    simp only [List.foldl_cons]
    obtain ⟨ihrep, ihvio⟩ := ih (cycleLoopStep fs origin acc r)
    rcases cycleLoopStep_cases fs origin acc r with ⟨hv, hr⟩ | ⟨c, hv, hr, hk⟩
    · refine ⟨fun k hk => ihrep k (hr ▸ hk), fun c hc => ?_⟩
      rcases ihvio c hc with h | ⟨h1, h2⟩
      · exact Or.inl (hv ▸ h)
      · exact Or.inr ⟨h1, fun hmem => h2 (hr ▸ hmem)⟩
    · constructor
      · intro k hkmem
        exact ihrep k (by rw [hr]; exact List.mem_cons_of_mem _ hkmem)
      · intro c' hc'
        rcases ihvio c' hc' with h | ⟨h1, h2⟩
        · rw [hv] at h
          rcases List.mem_append.mp h with h | h
          · exact Or.inl h
          · have hc'c : c' = c := by simpa using h
            subst hc'c
            refine Or.inr ⟨?_, hk⟩
            exact ihrep (buildCycleKey c') (by rw [hr]; exact List.mem_cons_self _ _)
        · refine Or.inr ⟨h1, fun hmem => h2 ?_⟩
          rw [hr]
          exact List.mem_cons_of_mem _ hmem

/-- C2 (amended): re-running `no-circular-dependencies` over the same
file in the same process is deterministic only up to the process-level
`reportedCycles` set: every violation a run emits carries a canonical
cycle key that was not previously reported and is recorded by the run,
a second run over the same file emits no violation whose key the first
run already recorded, and consequently whenever the first run reported
anything at all, the second run's violations list differs from the
first's.  Rules without module-level mutable state are unaffected. -/
theorem noCircularDependencies_rerun_spec (fs : FsModel) (filePath : String)
    (imports : List String) (st : CycleRuleState) :
    (∀ c ∈ (noCircularDependenciesRun fs filePath imports st).1,
      buildCycleKey c ∈ (noCircularDependenciesRun fs filePath imports st).2.reported ∧
      buildCycleKey c ∉ st.reported) ∧
    (∀ c ∈ (noCircularDependenciesRun fs filePath imports
        (noCircularDependenciesRun fs filePath imports st).2).1,
      buildCycleKey c ∉ (noCircularDependenciesRun fs filePath imports st).2.reported) ∧
    ((noCircularDependenciesRun fs filePath imports st).1 ≠ [] →
      (noCircularDependenciesRun fs filePath imports
        (noCircularDependenciesRun fs filePath imports st).2).1 ≠
        (noCircularDependenciesRun fs filePath imports st).1) := by
  have hpart1 : ∀ c ∈ (noCircularDependenciesRun fs filePath imports st).1,
      buildCycleKey c ∈ (noCircularDependenciesRun fs filePath imports st).2.reported ∧
      buildCycleKey c ∉ st.reported := by
    intro c hc
    obtain ⟨_, hvio⟩ := cycleLoop_invariant fs filePath imports
      { violations := [],
        cache := cacheSet st.cache filePath (resolveFromReferences fs filePath imports),
        reported := st.reported }
    rcases hvio c hc with h | ⟨h1, h2⟩
    · simp at h
    · exact ⟨h1, h2⟩
  have hpart2 : ∀ c ∈ (noCircularDependenciesRun fs filePath imports
        (noCircularDependenciesRun fs filePath imports st).2).1,
      buildCycleKey c ∉ (noCircularDependenciesRun fs filePath imports st).2.reported := by
    intro c hc
    obtain ⟨_, hvio⟩ := cycleLoop_invariant fs filePath imports
      { violations := [],
        cache := cacheSet (noCircularDependenciesRun fs filePath imports st).2.cache
          filePath (resolveFromReferences fs filePath imports),
        reported := (noCircularDependenciesRun fs filePath imports st).2.reported }
    rcases hvio c hc with h | ⟨_, h2⟩
    · simp at h
    · exact h2
  refine ⟨hpart1, hpart2, ?_⟩
  intro hne heq
  rcases hv1 : (noCircularDependenciesRun fs filePath imports st).1 with _ | ⟨c, rest⟩
  · exact hne hv1
  · have hmem1 : c ∈ (noCircularDependenciesRun fs filePath imports st).1 := by
      rw [hv1]; exact List.mem_cons_self _ _
    have hmem2 : c ∈ (noCircularDependenciesRun fs filePath imports
        (noCircularDependenciesRun fs filePath imports st).2).1 := by
      rw [heq, hv1]; exact List.mem_cons_self _ _
    exact hpart2 c hmem2 (hpart1 c hmem1).1

/-- A one-file project whose file `A` imports itself: the specifier
`./a` inside `A` resolves back to `A` (a self-import), and no other
resolution succeeds. -/
def selfImportFs : FsModel :=
  { fsImports := fun _ => []
    resolveSpec := fun f s => if f = "A" ∧ s = "./a" then some "A" else none }

theorem selfImport_walk (st : WalkState) :
    walk selfImportFs "A" "A" 0 st = (some ["A"], st) := by
  rw [walk]
  rw [dif_neg (by decide)]
  rw [if_pos rfl]

theorem selfImport_find (cache : ImportCache) :
    findPathToOrigin selfImportFs "A" "A" cache = (some ["A"], cache) := by
  unfold findPathToOrigin
  rw [selfImport_walk]

theorem selfImport_step (acc : RuleLoopAcc) :
    cycleLoopStep selfImportFs "A" acc "./a" =
      (if "A->A" ∈ acc.reported then acc
       else
        { violations := acc.violations ++ [["A", "A"]]
          cache := acc.cache
          reported := "A->A" :: acc.reported }) := by
  unfold cycleLoopStep
  rw [if_neg (by decide)]
  show (match selfImportFs.resolveSpec "A" "./a" with
    | none => acc
    | some target => _) = _
  rw [show selfImportFs.resolveSpec "A" "./a" = some "A" from by decide]
  dsimp only
  rw [selfImport_find]
  dsimp only
  rw [show buildCycleKey ["A", "A"] = "A->A" from by decide]

theorem selfImport_run1 :
    noCircularDependenciesRun selfImportFs "A" ["./a"] ⟨[], []⟩ =
      ([["A", "A"]], ⟨[("A", ["A"])], ["A->A"]⟩) := by
  unfold noCircularDependenciesRun
  dsimp only
  rw [show resolveFromReferences selfImportFs "A" ["./a"] = ["A"] from by decide]
  simp only [List.foldl_cons, List.foldl_nil]
  rw [selfImport_step]
  rw [if_neg (by decide)]
  rfl

theorem selfImport_run2 :
    (noCircularDependenciesRun selfImportFs "A" ["./a"] ⟨[("A", ["A"])], ["A->A"]⟩).1 =
      [] := by
  unfold noCircularDependenciesRun
  dsimp only
  simp only [List.foldl_cons, List.foldl_nil]
  rw [selfImport_step]
  rw [if_pos (by decide)]

/-- C2, counterexample to the claim as stated: in a project where the
file `A` imports itself, the first run of `no-circular-dependencies`
emits the cycle `A -> A`, while a second run over the same file with
the same configuration in the same process emits nothing — the
module-level `reportedCycles` set suppresses the already-reported
cycle, so the two violations lists differ. -/
theorem noCircularDependencies_rerun_counterexample :
    (noCircularDependenciesRun selfImportFs "A" ["./a"] ⟨[], []⟩).1 = [["A", "A"]] ∧
    (noCircularDependenciesRun selfImportFs "A" ["./a"]
        (noCircularDependenciesRun selfImportFs "A" ["./a"] ⟨[], []⟩).2).1 = [] ∧
    ([["A", "A"]] : List (List String)) ≠ [] := by
  refine ⟨?_, ?_, by decide⟩
  · rw [selfImport_run1]
  · rw [selfImport_run1]
    exact selfImport_run2

theorem noCircularDependencies_rerun_spec_witness :
    buildCycleKey ["A", "A"] ∈
      (noCircularDependenciesRun selfImportFs "A" ["./a"] ⟨[], []⟩).2.reported ∧
    buildCycleKey ["A", "A"] ∉ (CycleRuleState.mk [] []).reported :=
  (noCircularDependencies_rerun_spec selfImportFs "A" ["./a"] ⟨[], []⟩).1 ["A", "A"]
    (by simp [selfImport_run1])

end AutoCR
